import Mathlib

/-!
Verification development for the ralph-loop-agent library core.

The TypeScript sources are shallowly embedded as Lean functions:

* character counts use Lean `String.length` (the sources are ASCII, where
  this agrees with JavaScript UTF-16 lengths);
* `undefined`/absent optional values become `Option`;
* JavaScript numbers used as token counts, timestamps and iteration
  counters become `Nat`; signed intermediate arithmetic (the eviction
  token deficit) becomes `Int`; dollar amounts and pricing rates become
  `ℚ` (exact arithmetic in place of IEEE doubles);
* a thrown exception becomes `Except.error` (for `costIs`) or an absent
  result (for the loop's final-result construction);
* external collaborators (the model call, the summarization call, the
  abort signal, the wall clock) are modelled as oracles indexed by the
  iteration number, since the loop invokes each of them exactly once per
  iteration.
-/

namespace Ralph

/-- Token estimation from ralph-context-manager: Math.ceil(text.length / 3.5),
which equals the ceiling of (2 * length) / 7. -/
def estimateTokens (text : String) : Nat :=
  (2 * text.length + 6) / 7

/-! ### Messages (ModelMessage shapes used by the loop and context manager) -/

/-- Role of a conversation message. -/
inductive MessageRole where
  | system
  | user
  | assistant
  | tool
  deriving DecidableEq

/-- A part of an array-valued message content. Tool-call parts carry the
tool name and (for write/edit tools) the path argument used by
summarizeIteration; tool-result parts carry their serialized result. -/
inductive MessagePart where
  | text (text : String)
  | toolCall (toolName : String) (argsPath : Option String)
  | toolResult (result : String)
  | opaquePart
  deriving DecidableEq

/-- Message content: either a plain string or an array of parts. -/
inductive MessageContent where
  | str (s : String)
  | parts (parts : List MessagePart)
  deriving DecidableEq

/-- A conversation message. -/
structure Message where
  role : MessageRole
  content : MessageContent
  deriving DecidableEq

/-- Per-part token estimate from estimateMessageTokens: text parts and
result parts are estimated from their text, all other parts cost a flat
100 tokens. -/
def estimatePartTokens : MessagePart → Nat
  | .text t => estimateTokens t
  | .toolResult r => estimateTokens r
  | _ => 100

/-- estimateMessageTokens from ralph-context-manager. -/
def estimateMessageTokens (message : Message) : Nat :=
  match message.content with
  | .str s => estimateTokens s
  | .parts l => (l.map estimatePartTokens).sum

/-! ### Token usage (LanguageModelUsage) and its addition -/

/-- Input-side token detail fields. -/
structure InputTokenDetails where
  noCacheTokens : Option Nat
  cacheReadTokens : Option Nat
  cacheWriteTokens : Option Nat
  deriving DecidableEq

/-- Output-side token detail fields. -/
structure OutputTokenDetails where
  textTokens : Option Nat
  reasoningTokens : Option Nat
  deriving DecidableEq

/-- LanguageModelUsage: every numeric field is optional; absence means
unknown, not zero. -/
structure LanguageModelUsage where
  inputTokens : Option Nat
  inputTokenDetails : Option InputTokenDetails
  outputTokens : Option Nat
  outputTokenDetails : Option OutputTokenDetails
  totalTokens : Option Nat
  deriving DecidableEq

/-- addTokenCounts from ralph-stop-condition: two absent operands give
absent; otherwise absent is treated as 0. -/
def addTokenCounts (a b : Option Nat) : Option Nat :=
  if a = none ∧ b = none then none else some (a.getD 0 + b.getD 0)

/-- addLanguageModelUsage from ralph-stop-condition: field-wise
addTokenCounts; the optional detail records are read through optional
chaining and the result always carries constructed detail records. -/
def addLanguageModelUsage (usage1 usage2 : LanguageModelUsage) : LanguageModelUsage :=
  { inputTokens := addTokenCounts usage1.inputTokens usage2.inputTokens
    inputTokenDetails := some
      { noCacheTokens := addTokenCounts
          (usage1.inputTokenDetails.bind fun d => d.noCacheTokens)
          (usage2.inputTokenDetails.bind fun d => d.noCacheTokens)
        cacheReadTokens := addTokenCounts
          (usage1.inputTokenDetails.bind fun d => d.cacheReadTokens)
          (usage2.inputTokenDetails.bind fun d => d.cacheReadTokens)
        cacheWriteTokens := addTokenCounts
          (usage1.inputTokenDetails.bind fun d => d.cacheWriteTokens)
          (usage2.inputTokenDetails.bind fun d => d.cacheWriteTokens) }
    outputTokens := addTokenCounts usage1.outputTokens usage2.outputTokens
    outputTokenDetails := some
      { textTokens := addTokenCounts
          (usage1.outputTokenDetails.bind fun d => d.textTokens)
          (usage2.outputTokenDetails.bind fun d => d.textTokens)
        reasoningTokens := addTokenCounts
          (usage1.outputTokenDetails.bind fun d => d.reasoningTokens)
          (usage2.outputTokenDetails.bind fun d => d.reasoningTokens) }
    totalTokens := addTokenCounts usage1.totalTokens usage2.totalTokens }

/-- createEmptyUsage from ralph-loop-agent: zero top-level counts with
all detail fields unknown. -/
def createEmptyUsage : LanguageModelUsage :=
  { inputTokens := some 0
    inputTokenDetails := some { noCacheTokens := none, cacheReadTokens := none, cacheWriteTokens := none }
    outputTokens := some 0
    outputTokenDetails := some { textTokens := none, reasoningTokens := none }
    totalTokens := some 0 }

/-! ### Step results and stop conditions -/

/-- The observable outcome of one generateText call: final text, token
usage, and the response messages appended to history. -/
structure StepResult where
  text : String
  usage : LanguageModelUsage
  responseMessages : List Message
  deriving DecidableEq

/-- RalphStopConditionContext from ralph-stop-condition. -/
structure RalphStopConditionContext where
  iteration : Nat
  allResults : List StepResult
  totalUsage : LanguageModelUsage
  model : String
  deriving DecidableEq

/-- A stop condition predicate over the loop context. -/
def RalphStopCondition : Type := RalphStopConditionContext → Bool

/-- iterationCountIs from ralph-stop-condition: iteration >= count. -/
def iterationCountIs (count : Nat) : RalphStopCondition :=
  fun context => decide (count ≤ context.iteration)

/-- isRalphStopConditionMet: true iff any configured condition returns
true (Promise.all followed by some). -/
def isRalphStopConditionMet (stopConditions : List RalphStopCondition)
    (context : RalphStopConditionContext) : Bool :=
  stopConditions.any fun condition => condition context

/-! ### Pricing and the cost stop condition -/

/-- Cost rates per million tokens. -/
structure CostRates where
  inputCostPerMillionTokens : ℚ
  outputCostPerMillionTokens : ℚ
  deriving DecidableEq

/-- MODEL_PRICING from ralph-stop-condition (cost per million tokens, USD). -/
def MODEL_PRICING : List (String × CostRates) :=
  [ ("anthropic/claude-opus-4.5", ⟨5.0, 25.0⟩)
  , ("anthropic/claude-sonnet-4", ⟨3.0, 15.0⟩)
  , ("anthropic/claude-haiku", ⟨0.25, 1.25⟩)
  , ("openai/gpt-4o", ⟨2.5, 10.0⟩)
  , ("openai/gpt-4o-mini", ⟨0.15, 0.6⟩)
  , ("openai/gpt-4-turbo", ⟨10.0, 30.0⟩)
  , ("openai/o1", ⟨15.0, 60.0⟩)
  , ("openai/o1-mini", ⟨1.1, 4.4⟩)
  , ("openai/o3-mini", ⟨1.1, 4.4⟩)
  , ("google/gemini-2.5-pro", ⟨1.25, 10.0⟩)
  , ("google/gemini-2.5-flash", ⟨0.15, 0.6⟩)
  , ("google/gemini-2.0-flash", ⟨0.1, 0.4⟩)
  , ("xai/grok-3", ⟨3.0, 15.0⟩)
  , ("xai/grok-3-mini", ⟨0.3, 0.5⟩)
  , ("deepseek/deepseek-chat", ⟨0.14, 0.28⟩)
  , ("deepseek/deepseek-reasoner", ⟨0.55, 2.19⟩) ]

/-- getModelPricing: key lookup in the pricing record. -/
def getModelPricing (model : String) : Option CostRates :=
  (MODEL_PRICING.find? fun p => p.1 == model).map fun p => p.2

/-- calculateCost from ralph-stop-condition: absent token counts count
as 0. -/
def calculateCost (usage : LanguageModelUsage) (rates : CostRates) : ℚ :=
  ((usage.inputTokens.getD 0 : ℚ) / 1000000) * rates.inputCostPerMillionTokens +
    ((usage.outputTokens.getD 0 : ℚ) / 1000000) * rates.outputCostPerMillionTokens

/-- The optional second argument of costIs: explicit rates, an explicit
model identifier, or absent (use the context's model). -/
inductive RatesOrModel where
  | rates (r : CostRates)
  | model (m : String)
  | absent
  deriving DecidableEq

/-- costIs from ralph-stop-condition, evaluated at one context. A thrown
configuration error (unknown model, no explicit rates) is modelled as
Except.error. -/
def costIs (maxCostDollars : ℚ) (ratesOrModel : RatesOrModel)
    (context : RalphStopConditionContext) : Except String Bool :=
  match ratesOrModel with
  | .rates r => Except.ok (decide (maxCostDollars ≤ calculateCost context.totalUsage r))
  | .model m =>
    match getModelPricing m with
    | none => Except.error ("Unknown model \"" ++ m ++ "\". Provide explicit rates.")
    | some pricing => Except.ok (decide (maxCostDollars ≤ calculateCost context.totalUsage pricing))
  | .absent =>
    match getModelPricing context.model with
    | none => Except.error ("Unknown model \"" ++ context.model ++ "\". Provide explicit rates.")
    | some pricing => Except.ok (decide (maxCostDollars ≤ calculateCost context.totalUsage pricing))

/-! ### Evaluation-response parsing (ralph-loop-agent.ts, parseEvaluationResponse) -/

/-- RalphEvaluatorResult from ralph-loop-agent-evaluator. -/
structure RalphEvaluatorResult where
  isComplete : Bool
  feedback : Option String
  reason : Option String
  deriving DecidableEq

/-- Whitespace in the JavaScript sense (the ASCII part of \s): space,
tab, newline, carriage return, vertical tab and form feed. -/
def jsIsWhitespace (c : Char) : Bool :=
  c == ' ' || c == '\t' || c == '\n' || c == '\r' || c == '\x0b' || c == '\x0c'

/-- JavaScript String.prototype.trim on the character list: drop
whitespace from both ends. -/
def jsTrim (s : String) : String :=
  String.mk (((s.toList.dropWhile jsIsWhitespace).reverse.dropWhile jsIsWhitespace).reverse)

/-- Uppercasing of one ASCII character, as String.prototype.toUpperCase
acts on the ASCII range. -/
def jsCharToUpper (c : Char) : Char :=
  if 97 ≤ c.toNat && c.toNat ≤ 122 then Char.ofNat (c.toNat - 32) else c

/-- JavaScript String.prototype.toUpperCase on ASCII text. -/
def jsToUpper (s : String) : String :=
  String.mk (s.toList.map jsCharToUpper)

/-- JavaScript String.prototype.startsWith. -/
def jsStartsWith (s searchString : String) : Bool :=
  searchString.toList.isPrefixOf s.toList

/-- Search for a needle as a contiguous run inside a haystack of
characters. -/
def listContainsRun (needle : List Char) : List Char → Bool
  | [] => needle.isEmpty
  | c :: rest => needle.isPrefixOf (c :: rest) || listContainsRun needle rest

/-- JavaScript String.prototype.includes, as infix search on the
character list. -/
def jsIncludes (s searchString : String) : Bool :=
  listContainsRun searchString.toList s.toList

/-- A character matched by the [,:\s]* tail of the NO-marker regex. -/
def isNoMarkerTail (c : Char) : Bool :=
  c == ',' || c == ':' || jsIsWhitespace c

/-- The replacement response.replace(/^no[,:\s]*\/i, ''): if the raw
string starts with n/N followed by o/O, remove those two characters and
any following run of commas, colons and whitespace; otherwise return the
string unchanged. -/
def stripNoMarker (response : String) : String :=
  match response.toList with
  | c1 :: c2 :: rest =>
    if (c1 == 'n' || c1 == 'N') && (c2 == 'o' || c2 == 'O') then
      String.mk (rest.dropWhile isNoMarkerTail)
    else response
  | _ => response

/-- parseEvaluationResponse from ralph-loop-agent.ts. -/
def parseEvaluationResponse (response : String) : RalphEvaluatorResult :=
  let normalizedResponse := jsToUpper (jsTrim response)
  if jsStartsWith normalizedResponse "YES" ||
      jsIncludes normalizedResponse "TASK IS COMPLETE" ||
      jsIncludes normalizedResponse "TASK HAS BEEN COMPLETED" then
    { isComplete := true, feedback := none, reason := some response }
  else if jsStartsWith normalizedResponse "NO" then
    let feedback := jsTrim (stripNoMarker response)
    { isComplete := false
      feedback := if feedback == "" then none else some feedback
      reason := some response }
  else
    { isComplete := false, feedback := none, reason := some ("Unclear response: " ++ response) }

/-! ### Context manager (ralph-context-manager.ts) -/

/-- A tracked file in context. -/
structure TrackedFile where
  path : String
  content : String
  estimatedTokens : Nat
  lastAccessed : Nat
  lineRange : Option (Nat × Nat)
  deriving DecidableEq

/-- Kind tag of a change log entry. -/
inductive ChangeLogType where
  | decision
  | action
  | error
  | observation
  deriving DecidableEq

/-- A change log entry. -/
structure ChangeLogEntry where
  timestamp : Nat
  iteration : Nat
  type : ChangeLogType
  summary : String
  details : Option String
  deriving DecidableEq

/-- Summary of a previous iteration. -/
structure IterationSummary where
  iteration : Nat
  summary : String
  toolsUsed : List String
  filesModified : List String
  estimatedTokens : Nat
  deriving DecidableEq

/-- RalphContextConfig: the optional configuration object. -/
structure RalphContextConfig where
  maxContextTokens : Option Nat
  changeLogBudget : Option Nat
  fileContextBudget : Option Nat
  maxFileChars : Option Nat
  enableSummarization : Option Bool
  recentIterationsToKeep : Option Nat
  deriving DecidableEq

/-- The configuration after the constructor applied its defaults. -/
structure ResolvedContextConfig where
  maxContextTokens : Nat
  changeLogBudget : Nat
  fileContextBudget : Nat
  maxFileChars : Nat
  enableSummarization : Bool
  recentIterationsToKeep : Nat
  deriving DecidableEq

/-- Default application in the RalphContextManager constructor. -/
def resolveConfig (config : RalphContextConfig) : ResolvedContextConfig :=
  { maxContextTokens := config.maxContextTokens.getD 150000
    changeLogBudget := config.changeLogBudget.getD 5000
    fileContextBudget := config.fileContextBudget.getD 50000
    maxFileChars := config.maxFileChars.getD 30000
    enableSummarization := config.enableSummarization.getD true
    recentIterationsToKeep := config.recentIterationsToKeep.getD 2 }

/-- The mutable state of one RalphContextManager instance. The file Map
is modelled as an association list in insertion order (JavaScript Map
iteration order). -/
structure RalphContextManager where
  config : ResolvedContextConfig
  trackedFiles : List (String × TrackedFile)
  changeLog : List ChangeLogEntry
  iterationSummaries : List IterationSummary
  currentIteration : Nat
  deriving DecidableEq

/-- The constructor: resolved configuration and empty state. -/
def mkContextManager (config : RalphContextConfig) : RalphContextManager :=
  { config := resolveConfig config
    trackedFiles := []
    changeLog := []
    iterationSummaries := []
    currentIteration := 0 }

/-- Map.get on the tracked-file association list. -/
def mapGet (files : List (String × TrackedFile)) (key : String) : Option TrackedFile :=
  (files.find? fun p => p.1 == key).map fun p => p.2

/-- Map.set: update in place when the key exists (preserving insertion
order), otherwise append at the end. -/
def mapSet (files : List (String × TrackedFile)) (key : String) (file : TrackedFile) :
    List (String × TrackedFile) :=
  if files.any fun p => p.1 == key then
    files.map fun p => if p.1 == key then (key, file) else p
  else
    files ++ [(key, file)]

/-- Map.delete. -/
def mapDelete (files : List (String × TrackedFile)) (key : String) :
    List (String × TrackedFile) :=
  files.filter fun p => !(p.1 == key)

/-- Total estimated tokens of the tracked files (the files component of
getTokenBudget). -/
def filesTokens (files : List (String × TrackedFile)) : Nat :=
  (files.map fun p => p.2.estimatedTokens).sum

/-- Total estimated tokens of the change log (the changeLog component of
getTokenBudget and the total used by trimChangeLog). -/
def changeLogTokens (log : List ChangeLogEntry) : Nat :=
  (log.map fun e => estimateTokens e.summary + estimateTokens (e.details.getD "")).sum

/-- The while loop of trimChangeLog: drop the oldest entry while the log
is non-empty and over budget. -/
def trimChangeLogLoop (budget : Nat) : List ChangeLogEntry → List ChangeLogEntry
  | [] => []
  | e :: rest =>
    if changeLogTokens (e :: rest) ≤ budget then e :: rest
    else trimChangeLogLoop budget rest

/-- trimChangeLog: the early return when already within budget coincides
with the first check of the while loop. -/
def trimChangeLog (cm : RalphContextManager) : RalphContextManager :=
  { cm with changeLog := trimChangeLogLoop cm.config.changeLogBudget cm.changeLog }

/-- The caller-supplied part of a change log entry (timestamp and
iteration are filled in by addChangeLogEntry). -/
structure ChangeLogInput where
  type : ChangeLogType
  summary : String
  details : Option String
  deriving DecidableEq

/-- The entry pushed by addChangeLogEntry for a given wall-clock time and
current iteration. -/
def mkChangeLogEntry (input : ChangeLogInput) (now : Nat) (iteration : Nat) : ChangeLogEntry :=
  { timestamp := now
    iteration := iteration
    type := input.type
    summary := input.summary
    details := input.details }

/-- addChangeLogEntry: push the entry, then trim while over budget. -/
def addChangeLogEntry (cm : RalphContextManager) (input : ChangeLogInput) (now : Nat) :
    RalphContextManager :=
  trimChangeLog { cm with changeLog := cm.changeLog ++ [mkChangeLogEntry input now cm.currentIteration] }

/-- The eviction for-loop of evictFilesIfNeeded: walk the entries sorted
by last access (oldest first), deleting each until the token deficit is
covered or the cache is exhausted. -/
def evictLoop : List (String × TrackedFile) → List (String × TrackedFile) → Int →
    List (String × TrackedFile)
  | files, [], _ => files
  | files, (path, file) :: rest, tokensToFree =>
    if tokensToFree ≤ 0 then files
    else evictLoop (mapDelete files path) rest (tokensToFree - (file.estimatedTokens : Int))

/-- evictFilesIfNeeded from ralph-context-manager. -/
def evictFilesIfNeeded (cm : RalphContextManager) (newFileTokens : Nat) : RalphContextManager :=
  let currentFileTokens := filesTokens cm.trackedFiles
  if currentFileTokens + newFileTokens ≤ cm.config.fileContextBudget then cm
  else
    let sorted := cm.trackedFiles.mergeSort fun a b => decide (a.2.lastAccessed ≤ b.2.lastAccessed)
    let tokensToFree : Int :=
      (currentFileTokens : Int) + (newFileTokens : Int) - (cm.config.fileContextBudget : Int)
    { cm with trackedFiles := evictLoop cm.trackedFiles sorted tokensToFree }

/-- Accumulating splitter for content.split('\n'). -/
def splitLinesAux : List Char → List Char → List String
  | [], acc => [String.mk acc.reverse]
  | c :: rest, acc =>
    if c == '\n' then String.mk acc.reverse :: splitLinesAux rest []
    else splitLinesAux rest (c :: acc)

/-- JavaScript content.split('\n'): the empty string splits to one empty
line. -/
def splitLines (content : String) : List String :=
  splitLinesAux content.toList []

/-- JavaScript lines.join('\n'). -/
def joinLines : List String → String
  | [] => ""
  | [line] => line
  | line :: rest => line ++ "\n" ++ joinLines rest

/-- JavaScript Array.prototype.slice with non-negative indices. -/
def jsSlice (l : List String) (start stop : Nat) : List String :=
  (l.drop start).take (stop - start)

/-- String.prototype.padStart with spaces. -/
def padStart (s : String) (width : Nat) : String :=
  if s.length < width then String.mk (List.replicate (width - s.length) ' ') ++ s else s

/-- The line-numbering map of trackFileRead: each line is prefixed with
its width-6 right-justified line number, counting from startNum. -/
def numberLines (startNum : Nat) : List String → List String
  | [] => []
  | line :: rest => (padStart (toString startNum) 6 ++ "| " ++ line) :: numberLines (startNum + 1) rest

/-- The return shape of trackFileRead. -/
structure TrackFileReadResult where
  content : String
  truncated : Bool
  totalLines : Option Nat
  lineRange : Option (Nat × Nat)
  deriving DecidableEq

/-- The ingest path of trackFileRead (cache miss, refresh, or explicit
line range): compute the possibly truncated content, evict if needed,
and store the entry. Line ranges are modelled with 1-based positive
start positions, as produced by the read tool. -/
def trackFileReadIngest (cm : RalphContextManager) (path content : String)
    (lineRange : Option (Nat × Nat)) (now : Nat) :
    RalphContextManager × TrackFileReadResult :=
  let lines := splitLines content
  match
    if cm.config.maxFileChars < content.length then
      match lineRange with
      | some (start, stop) =>
        ((joinLines (numberLines start (jsSlice lines (start - 1) stop)),
          some (start, stop), false) : String × Option (Nat × Nat) × Bool)
      | none =>
        let maxLines := cm.config.maxFileChars / 80
        (joinLines (numberLines 1 (jsSlice lines 0 maxLines)) ++
           "\n\n... [TRUNCATED: File has " ++ toString lines.length ++ " lines, showing 1-" ++
           toString maxLines ++ ". Use lineRange to read specific sections] ...",
         some (1, maxLines), true)
    else (content, lineRange, false) with
  | (finalContent, lineRangeOut, truncated) =>
    let estimatedTokens := estimateTokens finalContent
    let cm1 := evictFilesIfNeeded cm estimatedTokens
    let cm2 := { cm1 with
      trackedFiles := mapSet cm1.trackedFiles path
        { path := path, content := finalContent, estimatedTokens := estimatedTokens,
          lastAccessed := now, lineRange := lineRangeOut } }
    (cm2, { content := finalContent, truncated := truncated,
            totalLines := some lines.length, lineRange := lineRangeOut })

/-- trackFileRead from ralph-context-manager: a cache hit without refresh
and without an explicit line range only updates the access time. -/
def trackFileRead (cm : RalphContextManager) (path content : String)
    (lineRange : Option (Nat × Nat)) (refresh : Bool) (now : Nat) :
    RalphContextManager × TrackFileReadResult :=
  match mapGet cm.trackedFiles path with
  | some existing =>
    if !refresh && lineRange.isNone then
      ({ cm with trackedFiles := mapSet cm.trackedFiles path { existing with lastAccessed := now } },
       { content := existing.content, truncated := existing.lineRange.isSome,
         totalLines := none, lineRange := existing.lineRange })
    else trackFileReadIngest cm path content lineRange now
  | none => trackFileReadIngest cm path content lineRange now

/-- clear from ralph-context-manager: reset all tracked state. -/
def clear (cm : RalphContextManager) : RalphContextManager :=
  { cm with trackedFiles := [], changeLog := [], iterationSummaries := [], currentIteration := 0 }

/-- setIteration from ralph-context-manager. -/
def setIteration (cm : RalphContextManager) (iteration : Nat) : RalphContextManager :=
  { cm with currentIteration := iteration }

/-- The tool calls (tool name, path argument) occurring in assistant
messages, in order, as scanned by summarizeIteration. -/
def toolCallsOf (messages : List Message) : List (String × Option String) :=
  messages.foldr
    (fun m acc =>
      match m with
      | ⟨.assistant, .parts parts⟩ =>
        (parts.filterMap fun p =>
          match p with
          | .toolCall n a => some (n, a)
          | _ => none) ++ acc
      | _ => acc)
    []

/-- summarizeIteration from ralph-context-manager: collect tool names and
modified file paths, obtain a summary from the summarization collaborator
(an oracle; none models a thrown summarization call, replaced by the
templated fallback), and append the IterationSummary. -/
def summarizeIteration (cm : RalphContextManager) (iteration : Nat) (messages : List Message)
    (summarizerText : Option String) : RalphContextManager :=
  let toolCalls := toolCallsOf messages
  let toolsUsed := toolCalls.map fun c => c.1
  let filesModified := toolCalls.filterMap fun c =>
    if c.1 == "writeFile" || c.1 == "editFile" then c.2 else none
  let summary :=
    match summarizerText with
    | some t => t
    | none =>
      "Iteration " ++ toString iteration ++ ": Used " ++ toString toolsUsed.length ++
        " tools (" ++ String.intercalate ", " (toolsUsed.take 5) ++
        (if 5 < toolsUsed.length then "..." else "") ++ "). Modified " ++
        toString filesModified.length ++ " files."
  { cm with iterationSummaries := cm.iterationSummaries ++
      [{ iteration := iteration, summary := summary, toolsUsed := toolsUsed.eraseDups,
         filesModified := filesModified.eraseDups, estimatedTokens := estimateTokens summary }] }

/-- prepareMessagesForIteration from ralph-context-manager. The 70%
threshold totalTokens < maxContextTokens * 0.7 is the exact comparison
totalTokens * 10 < maxContextTokens * 7. -/
def prepareMessagesForIteration (cm : RalphContextManager) (currentMessages : List Message)
    (iteration : Nat) (previousResultMessages : List Message) (summarizerText : Option String) :
    RalphContextManager × (List Message × Bool) :=
  let cm := setIteration cm iteration
  if iteration ≤ cm.config.recentIterationsToKeep || !cm.config.enableSummarization then
    (cm, (currentMessages, false))
  else
    let totalTokens := (currentMessages.map estimateMessageTokens).sum
    if totalTokens * 10 < cm.config.maxContextTokens * 7 then (cm, (currentMessages, false))
    else
      let cm' :=
        if 0 < previousResultMessages.length then
          summarizeIteration cm (iteration - 1) previousResultMessages summarizerText
        else cm
      let recentStartIndex := currentMessages.length - cm.config.recentIterationsToKeep * 10
      (cm', (currentMessages.drop recentStartIndex, true))

/-! ### The Ralph loop (ralph-loop-agent.ts with stop conditions and
context management) -/

/-- VerifyCompletionResult: the completion verdict returned by the
verifyCompletion collaborator. -/
structure VerifyCompletionResult where
  complete : Bool
  reason : Option String
  deriving DecidableEq

/-- The agent settings together with the external collaborators, each
modelled as an oracle indexed by the iteration number: step is the
generateText call, summarizer the summarization call (none models a
thrown call), abortedAt the state of the abort signal at the check
before the given iteration, clock the wall-clock time observed in the
given iteration. -/
structure AgentConfig where
  modelId : String
  stopWhen : Option (List RalphStopCondition)
  verifyCompletion : Option (Nat → VerifyCompletionResult)
  step : Nat → StepResult
  summarizer : Nat → Option String
  abortedAt : Nat → Bool
  clock : Nat → Nat

/-- getStopConditions: default to iterationCountIs(10) when none are
configured. -/
def getStopConditions (A : AgentConfig) : List RalphStopCondition :=
  match A.stopWhen with
  | none => [iterationCountIs 10]
  | some l => l

/-- The loop's mutable state at the top of each pass. -/
structure LoopState where
  iteration : Nat
  allResults : List StepResult
  currentMessages : List Message
  totalUsage : LanguageModelUsage
  contextManager : Option RalphContextManager
  deriving DecidableEq

/-- Why the loop stopped. -/
inductive CompletionReason where
  | verified
  | maxIterations
  | aborted
  deriving DecidableEq

/-- The loop's state at its break point, before the final result is
constructed. -/
structure LoopTermination where
  finalState : LoopState
  completionReason : CompletionReason
  reason : Option String
  deriving DecidableEq

/-- The user message injected for verification feedback. -/
def feedbackMessage (reason : String) : Message :=
  { role := .user, content := .parts [.text ("Feedback: " ++ reason)] }

/-- One-pass-at-a-time execution of the while loop of
RalphLoopAgent.loop. fuel bounds the number of passes; none means fuel
ran out before the loop stopped. Per pass: abort check, context
preparation, the step call, usage accumulation, history append, stop
conditions, then completion verification with optional feedback
injection. -/
def loopGo (A : AgentConfig) : Nat → LoopState → Option LoopTermination
  | 0, _ => none
  | fuel + 1, s =>
    if A.abortedAt (s.iteration + 1) then some { finalState := s, completionReason := .aborted, reason := none }
    else
      let iteration := s.iteration + 1
      let previousResultMessages :=
        match s.allResults.getLast? with
        | some r => r.responseMessages
        | none => []
      let contextManager1 :=
        match s.contextManager with
        | some cm =>
          some (prepareMessagesForIteration cm s.currentMessages iteration previousResultMessages
            (A.summarizer iteration)).1
        | none => none
      let result := A.step iteration
      let allResults := s.allResults ++ [result]
      let totalUsage := addLanguageModelUsage s.totalUsage result.usage
      let currentMessages := s.currentMessages ++ result.responseMessages
      let s' : LoopState :=
        { iteration := iteration, allResults := allResults, currentMessages := currentMessages,
          totalUsage := totalUsage, contextManager := contextManager1 }
      if isRalphStopConditionMet (getStopConditions A)
          { iteration := iteration, allResults := allResults, totalUsage := totalUsage,
            model := A.modelId } then
        some { finalState := s', completionReason := .maxIterations, reason := none }
      else
        match A.verifyCompletion with
        | none => loopGo A fuel s'
        | some verify =>
          let verification := verify iteration
          if verification.complete then
            some { finalState := s', completionReason := .verified, reason := verification.reason }
          else
            match verification.reason with
            | some fb =>
              if fb == "" then loopGo A fuel s'
              else
                loopGo A fuel
                  { s' with
                    currentMessages := s'.currentMessages ++ [feedbackMessage fb],
                    contextManager := s'.contextManager.map fun cm =>
                      addChangeLogEntry cm
                        { type := .observation, summary := "Verification feedback received",
                          details := some (fb.take 200) }
                        (A.clock iteration) }
            | none => loopGo A fuel s'

/-- The state at the top of the loop: zero iterations, empty history,
empty usage, and the instance's context manager after the clear() at the
start of loop(). -/
def initialLoopState (contextManager : Option RalphContextManager) : LoopState :=
  { iteration := 0, allResults := [], currentMessages := [], totalUsage := createEmptyUsage,
    contextManager := contextManager.map clear }

/-- The result object returned by RalphLoopAgent.loop. -/
structure RalphLoopAgentResult where
  text : String
  iterations : Nat
  completionReason : CompletionReason
  reason : Option String
  result : StepResult
  allResults : List StepResult
  deriving DecidableEq

/-- RalphLoopAgent.loop: run the loop, then build the result from the
last iteration's result. The source reads allResults[allResults.length-1]
through a non-null assertion and dereferences .text on it; with zero
completed iterations that dereference throws, modelled by the inner
Option being none. The outer Option is fuel exhaustion only. -/
def loop (A : AgentConfig) (contextManager : Option RalphContextManager) (fuel : Nat) :
    Option (Option RalphLoopAgentResult) :=
  (loopGo A fuel (initialLoopState contextManager)).map fun term =>
    term.finalState.allResults.getLast?.map fun finalResult =>
      { text := finalResult.text, iterations := term.finalState.iteration,
        completionReason := term.completionReason, reason := term.reason,
        result := finalResult, allResults := term.finalState.allResults }

/-! ### Usage-addition algebra (C7) -/

theorem addTokenCounts_comm (a b : Option Nat) : addTokenCounts a b = addTokenCounts b a := by
  cases a <;> cases b <;> simp [addTokenCounts, Nat.add_comm]

theorem addTokenCounts_assoc (a b c : Option Nat) :
    addTokenCounts (addTokenCounts a b) c = addTokenCounts a (addTokenCounts b c) := by
  cases a <;> cases b <;> cases c
  all_goals simp [addTokenCounts]
  all_goals omega

/-- C7: token-usage addition is commutative and associative, and on each
numeric field two absent operands give absent while a known value plus an
absent one gives the known value. -/
theorem claim_C7_usage_addition_algebra :
    (∀ u1 u2 : LanguageModelUsage,
      addLanguageModelUsage u1 u2 = addLanguageModelUsage u2 u1) ∧
    (∀ u1 u2 u3 : LanguageModelUsage,
      addLanguageModelUsage (addLanguageModelUsage u1 u2) u3 =
        addLanguageModelUsage u1 (addLanguageModelUsage u2 u3)) ∧
    addTokenCounts none none = none ∧
    (∀ n : Nat, addTokenCounts (some n) none = some n ∧ addTokenCounts none (some n) = some n) := by
  refine ⟨?_, ?_, ?_, ?_⟩
  · intro u1 u2
    simp [addLanguageModelUsage, addTokenCounts_comm]
  · intro u1 u2 u3
    simp [addLanguageModelUsage, Option.bind, addTokenCounts_assoc]
  · rfl
  · intro n
    exact ⟨by simp [addTokenCounts], by simp [addTokenCounts]⟩

/-! ### Change-log budget and suffix invariants (C5) -/

theorem trimChangeLogLoop_le (budget : Nat) :
    ∀ log, changeLogTokens (trimChangeLogLoop budget log) ≤ budget := by
  intro log
  induction log with
  | nil => simp [trimChangeLogLoop, changeLogTokens]
  | cons e rest ih =>
    by_cases h : changeLogTokens (e :: rest) ≤ budget
    · rw [trimChangeLogLoop, if_pos h]; exact h
    · rw [trimChangeLogLoop, if_neg h]; exact ih

theorem trimChangeLogLoop_suffix (budget : Nat) :
    ∀ log, (trimChangeLogLoop budget log).IsSuffix log := by
  intro log
  induction log with
  | nil => exact List.suffix_refl _
  | cons e rest ih =>
    by_cases h : changeLogTokens (e :: rest) ≤ budget
    · rw [trimChangeLogLoop, if_pos h]
    · rw [trimChangeLogLoop, if_neg h]
      exact ih.trans (List.suffix_cons e rest)

theorem isSuffix_append_right {α : Type} {l1 l2 : List α} (t : List α) (h : l1.IsSuffix l2) :
    (l1 ++ t).IsSuffix (l2 ++ t) := by
  obtain ⟨w, hw⟩ := h
  exact ⟨w, by rw [← List.append_assoc, hw]⟩

/-- A sequence of addChangeLogEntry calls, oldest first, as performed by
the surrounding loop. -/
def applyChangeLog (cm : RalphContextManager) (calls : List (ChangeLogInput × Nat)) :
    RalphContextManager :=
  calls.foldl (fun m c => addChangeLogEntry m c.1 c.2) cm

theorem addChangeLogEntry_config (cm : RalphContextManager) (input : ChangeLogInput) (now : Nat) :
    (addChangeLogEntry cm input now).config = cm.config := rfl

theorem addChangeLogEntry_currentIteration (cm : RalphContextManager) (input : ChangeLogInput)
    (now : Nat) : (addChangeLogEntry cm input now).currentIteration = cm.currentIteration := rfl

theorem applyChangeLog_suffix :
    ∀ (calls : List (ChangeLogInput × Nat)) (cm : RalphContextManager),
      (applyChangeLog cm calls).changeLog.IsSuffix
        (cm.changeLog ++ calls.map fun c => mkChangeLogEntry c.1 c.2 cm.currentIteration) := by
  intro calls
  induction calls with
  | nil => intro cm; simp [applyChangeLog]
  | cons c rest ih =>
    intro cm
    have hstep : (addChangeLogEntry cm c.1 c.2).changeLog.IsSuffix
        (cm.changeLog ++ [mkChangeLogEntry c.1 c.2 cm.currentIteration]) :=
      trimChangeLogLoop_suffix _ _
    have h1 := ih (addChangeLogEntry cm c.1 c.2)
    rw [addChangeLogEntry_currentIteration] at h1
    have h2 : ((addChangeLogEntry cm c.1 c.2).changeLog ++
        rest.map fun c => mkChangeLogEntry c.1 c.2 cm.currentIteration).IsSuffix
        ((cm.changeLog ++ [mkChangeLogEntry c.1 c.2 cm.currentIteration]) ++
          rest.map fun c => mkChangeLogEntry c.1 c.2 cm.currentIteration) :=
      isSuffix_append_right _ hstep
    have h3 := h1.trans h2
    rw [List.append_assoc] at h3
    simpa [applyChangeLog] using h3

/-- C5: after every addChangeLogEntry call the change log's total
estimated token cost is within the configured budget, the surviving
entries are a contiguous suffix of the append order (only oldest entries
are dropped, verbatim, never summarized), and the same suffix property
holds across any sequence of appends. -/
theorem claim_C5_change_log_invariant :
    ∀ (cm : RalphContextManager) (input : ChangeLogInput) (now : Nat),
      changeLogTokens (addChangeLogEntry cm input now).changeLog ≤ cm.config.changeLogBudget ∧
      (addChangeLogEntry cm input now).changeLog.IsSuffix
        (cm.changeLog ++ [mkChangeLogEntry input now cm.currentIteration]) ∧
      ∀ (calls : List (ChangeLogInput × Nat)),
        (applyChangeLog cm calls).changeLog.IsSuffix
          (cm.changeLog ++ calls.map fun c => mkChangeLogEntry c.1 c.2 cm.currentIteration) := by
  intro cm input now
  exact ⟨trimChangeLogLoop_le _ _, trimChangeLogLoop_suffix _ _, fun calls => applyChangeLog_suffix calls cm⟩

/-! ### Cost stop condition (C8) -/

/-- C8: against a model with known per-million-token rates (a, b), the
costIs(c) predicate fires exactly when (inputTokens/1e6)*a +
(outputTokens/1e6)*b reaches c, with absent token counts counted as 0;
for a model identifier with no known rate and no explicit override it
raises a configuration error when evaluated. -/
theorem claim_C8_cost_predicate (c : ℚ) (m : String) (i : Nat) (rs : List StepResult)
    (u : LanguageModelUsage) :
    (∀ rates : CostRates, getModelPricing m = some rates →
      (costIs c RatesOrModel.absent
          { iteration := i, allResults := rs, totalUsage := u, model := m } = Except.ok true ↔
        c ≤ ((u.inputTokens.getD 0 : ℚ) / 1000000) * rates.inputCostPerMillionTokens +
          ((u.outputTokens.getD 0 : ℚ) / 1000000) * rates.outputCostPerMillionTokens)) ∧
    (getModelPricing m = none →
      ∃ msg, costIs c RatesOrModel.absent
        { iteration := i, allResults := rs, totalUsage := u, model := m } = Except.error msg) := by
  constructor
  · intro rates h
    simp [costIs, h, calculateCost]
  · intro h
    simp [costIs, h]

/-- One million input and one million output tokens, details unknown. -/
def usageOneMillionEach : LanguageModelUsage :=
  { inputTokens := some 1000000
    inputTokenDetails := none
    outputTokens := some 1000000
    outputTokenDetails := none
    totalTokens := some 2000000 }

/-- The stop-condition context used to exercise claim C8 concretely. -/
def costContextFor (model : String) : RalphStopConditionContext :=
  { iteration := 1
    allResults := []
    totalUsage := usageOneMillionEach
    model := model }

/-- Concrete check of C8: gpt-4o pricing is known and one million tokens
on each side cost 2.5 + 10 = 12.5 dollars, firing the 5-dollar
threshold; an unknown identifier errors. -/
theorem claim_C8_cost_predicate_witness :
    (getModelPricing "openai/gpt-4o" =
      some { inputCostPerMillionTokens := 2.5, outputCostPerMillionTokens := 10.0 }) ∧
    (costIs 5 RatesOrModel.absent (costContextFor "openai/gpt-4o") = Except.ok true ↔
      (5 : ℚ) ≤ (((1000000 : Nat) : ℚ) / 1000000) * (2.5 : ℚ) +
        (((1000000 : Nat) : ℚ) / 1000000) * (10.0 : ℚ)) ∧
    (getModelPricing "unknown/model" = none) ∧
    (∃ msg, costIs 5 RatesOrModel.absent (costContextFor "unknown/model") = Except.error msg) := by
  refine ⟨rfl, ?_, rfl, ?_⟩
  · exact (claim_C8_cost_predicate 5 "openai/gpt-4o" 1 [] usageOneMillionEach).1 _ rfl
  · exact (claim_C8_cost_predicate 5 "unknown/model" 1 [] usageOneMillionEach).2 rfl

/-! ### Evaluation-response parsing (C9) -/

/-- C9 counterexample: for the response "  NO fix tests" the trimmed,
case-normalized text starts with NO, but the feedback keeps the NO
marker (the marker strip runs against the raw, untrimmed response), so
it is not the text following the leading NO marker. -/
theorem claim_C9_counterexample :
    jsStartsWith (jsToUpper (jsTrim "  NO fix tests")) "NO" = true ∧
    parseEvaluationResponse "  NO fix tests" =
      { isComplete := false, feedback := some "NO fix tests", reason := some "  NO fix tests" } ∧
    some "NO fix tests" ≠ some "fix tests" := by
  exact ⟨by decide, by decide, by decide⟩

/-- C9 as amended: completeness holds exactly for a normalized YES start
or an explicit completion phrase; a normalized NO start yields
incomplete with feedback equal to the raw response stripped of a leading
case-insensitive no-marker and trimmed (absent when empty), the marker
being stripped only when the raw response itself starts with it; and
anything else defaults to incomplete with an unparseable-response
diagnostic. -/
theorem claim_C9_amended (response : String) :
    ((parseEvaluationResponse response).isComplete = true ↔
      (jsStartsWith (jsToUpper (jsTrim response)) "YES" = true ∨
        jsIncludes (jsToUpper (jsTrim response)) "TASK IS COMPLETE" = true ∨
        jsIncludes (jsToUpper (jsTrim response)) "TASK HAS BEEN COMPLETED" = true)) ∧
    ((jsStartsWith (jsToUpper (jsTrim response)) "YES" ||
        jsIncludes (jsToUpper (jsTrim response)) "TASK IS COMPLETE" ||
        jsIncludes (jsToUpper (jsTrim response)) "TASK HAS BEEN COMPLETED") = false →
      jsStartsWith (jsToUpper (jsTrim response)) "NO" = true →
      parseEvaluationResponse response =
        { isComplete := false
          feedback := if jsTrim (stripNoMarker response) == "" then none
            else some (jsTrim (stripNoMarker response))
          reason := some response }) ∧
    ((jsStartsWith (jsToUpper (jsTrim response)) "YES" ||
        jsIncludes (jsToUpper (jsTrim response)) "TASK IS COMPLETE" ||
        jsIncludes (jsToUpper (jsTrim response)) "TASK HAS BEEN COMPLETED") = false →
      jsStartsWith (jsToUpper (jsTrim response)) "NO" = false →
      parseEvaluationResponse response =
        { isComplete := false, feedback := none,
          reason := some ("Unclear response: " ++ response) }) ∧
    (∀ rest : String, stripNoMarker ("NO" ++ rest) =
      String.mk (rest.toList.dropWhile isNoMarkerTail)) := by
  refine ⟨?_, ?_, ?_, ?_⟩
  · by_cases h1 : (jsStartsWith (jsToUpper (jsTrim response)) "YES" ||
        jsIncludes (jsToUpper (jsTrim response)) "TASK IS COMPLETE" ||
        jsIncludes (jsToUpper (jsTrim response)) "TASK HAS BEEN COMPLETED") = true
    · simp only [parseEvaluationResponse, h1, if_true]
      simp only [Bool.or_eq_true] at h1
      simpa using or_assoc.mp h1
    · have h1' : (jsStartsWith (jsToUpper (jsTrim response)) "YES" ||
          jsIncludes (jsToUpper (jsTrim response)) "TASK IS COMPLETE" ||
          jsIncludes (jsToUpper (jsTrim response)) "TASK HAS BEEN COMPLETED") = false :=
        Bool.eq_false_iff.mpr h1
      simp only [parseEvaluationResponse, h1', Bool.false_eq_true, if_false]
      by_cases h2 : jsStartsWith (jsToUpper (jsTrim response)) "NO" = true
      · simp only [h2, if_true]
        simp only [Bool.or_eq_true] at h1
        simp [not_or] at h1
        simp [h1]
      · have h2' : jsStartsWith (jsToUpper (jsTrim response)) "NO" = false :=
          Bool.eq_false_iff.mpr h2
        simp only [h2', Bool.false_eq_true, if_false]
        simp only [Bool.or_eq_true] at h1
        simp [not_or] at h1
        simp [h1]
  · intro h1 h2
    simp only [parseEvaluationResponse, h1, Bool.false_eq_true, if_false, h2, if_true]
  · intro h1 h2
    simp only [parseEvaluationResponse, h1, Bool.false_eq_true, if_false, h2]
  · intro rest
    rfl

/-- Concrete check of the amended C9: a "No: ..." judge response parses
to incomplete with the marker stripped from the feedback. -/
theorem claim_C9_amended_witness :
    ((jsStartsWith (jsToUpper (jsTrim "No: add tests")) "YES" ||
        jsIncludes (jsToUpper (jsTrim "No: add tests")) "TASK IS COMPLETE" ||
        jsIncludes (jsToUpper (jsTrim "No: add tests")) "TASK HAS BEEN COMPLETED") = false) ∧
    (jsStartsWith (jsToUpper (jsTrim "No: add tests")) "NO" = true) ∧
    parseEvaluationResponse "No: add tests" =
      { isComplete := false, feedback := some "add tests", reason := some "No: add tests" } := by
  refine ⟨by decide, by decide, ?_⟩
  have h := (claim_C9_amended "No: add tests").2.1 (by decide) (by decide)
  rw [h]
  decide

/-! ### Loop termination behaviour (C1, C2, C3, C10) -/

/-- Characterization of a run whose only stop condition is
iterationCountIs(m), with an uncancelled abort signal and a completion
evaluator that first reports complete at iteration k ≤ m: the run
performs exactly k iterations and stops verified when k < m, but
exhausted (max-iterations) when k = m, because the stop conditions are
checked before the completion verdict on each iteration. -/
theorem loopGo_run (A : AgentConfig) (m k : Nat) (f : Nat → VerifyCompletionResult)
    (hstop : A.stopWhen = some [iterationCountIs m])
    (hver : A.verifyCompletion = some f)
    (hab : ∀ i, A.abortedAt i = false)
    (hkm : k ≤ m)
    (hcompl : ∀ i, 1 ≤ i → i < k → (f i).complete = false)
    (hkc : k < m → (f k).complete = true) :
    ∀ fuel s, s.allResults.length = s.iteration → s.iteration < k → k - s.iteration ≤ fuel →
      ∃ term, loopGo A fuel s = some term ∧
        term.finalState.iteration = k ∧
        term.finalState.allResults.length = k ∧
        ((k < m ∧ term.completionReason = .verified ∧ term.reason = (f k).reason) ∨
          (k = m ∧ term.completionReason = .maxIterations ∧ term.reason = none)) := by
  intro fuel
  induction fuel with
  | zero => intro s hlen hlt hfuel; omega
  | succ fuel ih =>
    intro s hlen hlt hfuel
    have hstopconds : getStopConditions A = [iterationCountIs m] := by
      simp [getStopConditions, hstop]
    rw [loopGo]
    rw [hab (s.iteration + 1)]
    simp only [Bool.false_eq_true, if_false, hstopconds, isRalphStopConditionMet,
      List.any_cons, List.any_nil, iterationCountIs, Bool.or_false, hver]
    by_cases hik : s.iteration + 1 = k
    · by_cases hklm : k < m
      · have hdec : decide (m ≤ s.iteration + 1) = false := decide_eq_false (by omega)
        have hc : (f (s.iteration + 1)).complete = true := by rw [hik]; exact hkc hklm
        simp only [hdec, Bool.false_eq_true, if_false, hc, if_true]
        refine ⟨_, rfl, hik, ?_, Or.inl ⟨hklm, rfl, by rw [hik]⟩⟩
        simp only [List.length_append, List.length_cons, List.length_nil, hlen]
        omega
      · have hdec : decide (m ≤ s.iteration + 1) = true := decide_eq_true (by omega)
        simp only [hdec, if_true]
        refine ⟨_, rfl, hik, ?_, Or.inr ⟨by omega, rfl, rfl⟩⟩
        simp only [List.length_append, List.length_cons, List.length_nil, hlen]
        omega
    · have hi : s.iteration + 1 < k := by omega
      have hdec : decide (m ≤ s.iteration + 1) = false := decide_eq_false (by omega)
      have hc : (f (s.iteration + 1)).complete = false := hcompl _ (by omega) hi
      simp only [hdec, Bool.false_eq_true, if_false, hc]
      rcases hr : (f (s.iteration + 1)).reason with _ | fb
      · simp only [hr]
        exact ih _ (by simp [hlen]) (by show s.iteration + 1 < k; omega)
          (by show k - (s.iteration + 1) ≤ fuel; omega)
      · simp only [hr]
        by_cases hfb : (fb == "") = true
        · simp only [hfb, if_true]
          exact ih _ (by simp [hlen]) (by show s.iteration + 1 < k; omega)
            (by show k - (s.iteration + 1) ≤ fuel; omega)
        · have hfb' : (fb == "") = false := Bool.eq_false_iff.mpr hfb
          simp only [hfb', Bool.false_eq_true, if_false]
          exact ih _ (by simp [hlen]) (by show s.iteration + 1 < k; omega)
            (by show k - (s.iteration + 1) ≤ fuel; omega)

/-- A deterministic step oracle used for concrete runs. -/
def testStepResult (i : Nat) : StepResult :=
  { text := "Attempt " ++ toString i
    usage := createEmptyUsage
    responseMessages := [{ role := .assistant, content := .str ("Attempt " ++ toString i) }] }

/-- An agent configuration with the given stop conditions, completion
evaluator and abort signal, over the deterministic step oracle. -/
def testAgent (stopWhen : Option (List RalphStopCondition))
    (verify : Option (Nat → VerifyCompletionResult)) (abortedAt : Nat → Bool) : AgentConfig :=
  { modelId := "anthropic/claude-opus-4.5"
    stopWhen := stopWhen
    verifyCompletion := verify
    step := testStepResult
    summarizer := fun _ => none
    abortedAt := abortedAt
    clock := fun i => i }

/-- The agent of the C1 counterexample: limit 1 and an evaluator that is
already complete at iteration 1. -/
def agentC1 : AgentConfig :=
  testAgent (some [iterationCountIs 1])
    (some fun _ => { complete := true, reason := some "done" }) (fun _ => false)

/-- C1 counterexample: with iteration limit max = 1 and a completion
evaluator that first reports complete at iteration k = 1 = max, the loop
stops after 1 iteration but with reason max-iterations (exhausted), not
verified: the stop conditions are consulted before the completion
verdict on that iteration. -/
theorem claim_C1_counterexample :
    (loopGo agentC1 2 (initialLoopState none)).map (fun term => term.completionReason) =
      some CompletionReason.maxIterations ∧
    (loopGo agentC1 2 (initialLoopState none)).map (fun term => term.finalState.iteration) =
      some 1 ∧
    CompletionReason.maxIterations ≠ CompletionReason.verified := by
  exact ⟨by decide, by decide, by decide⟩

/-- C1 as amended: with the stop condition iterationCountIs(max) and a
completion evaluator first complete at iteration k ≤ max, the run stops
after exactly k iterations; it reports verified with the verdict's
reason when k < max, and max-iterations (exhausted) when k = max, since
stop conditions are checked before the verdict each iteration. -/
theorem claim_C1_amended (A : AgentConfig) (m k : Nat) (f : Nat → VerifyCompletionResult)
    (fuel : Nat) (cm : Option RalphContextManager)
    (hstop : A.stopWhen = some [iterationCountIs m])
    (hver : A.verifyCompletion = some f)
    (hab : ∀ i, A.abortedAt i = false)
    (hcompl : ∀ i, 1 ≤ i → i < k → (f i).complete = false)
    (hk : (f k).complete = true)
    (h1k : 1 ≤ k) (hkm : k ≤ m) (hfuel : k ≤ fuel) :
    ∃ term, loopGo A fuel (initialLoopState cm) = some term ∧
      term.finalState.iteration = k ∧
      term.finalState.allResults.length = k ∧
      ((k < m ∧ term.completionReason = .verified ∧ term.reason = (f k).reason) ∨
        (k = m ∧ term.completionReason = .maxIterations ∧ term.reason = none)) :=
  loopGo_run A m k f hstop hver hab hkm hcompl (fun _ => hk) fuel _ rfl
    (by show 0 < k; omega) (by show k - 0 ≤ fuel; omega)

/-- The agent of the C1 amended witness: limit 3, complete at 1. -/
def agentC1w : AgentConfig :=
  testAgent (some [iterationCountIs 3])
    (some fun _ => { complete := true, reason := some "done" }) (fun _ => false)

/-- Concrete check of the amended C1 at k = 1 < max = 3. -/
theorem claim_C1_amended_witness :
    (1 ≤ 1 ∧ (1 : Nat) ≤ 3) ∧
    ∃ term, loopGo agentC1w 3 (initialLoopState none) = some term ∧
      term.finalState.iteration = 1 ∧
      term.finalState.allResults.length = 1 ∧
      ((1 < 3 ∧ term.completionReason = .verified ∧ term.reason = some "done") ∨
        ((1 : Nat) = 3 ∧ term.completionReason = .maxIterations ∧ term.reason = none)) :=
  ⟨⟨by decide, by decide⟩,
    claim_C1_amended agentC1w 3 1 (fun _ => { complete := true, reason := some "done" }) 3 none
      rfl rfl (fun _ => rfl) (fun i h1 h2 => absurd h2 (by omega)) rfl
      (by decide) (by decide) (by decide)⟩

/-- C2: configured with only iterationCountIs(n), n ≥ 1, and an
evaluator that never reports complete, the loop performs exactly n step
calls and stops with reason max-iterations (exhausted). -/
theorem claim_C2_iteration_count_exhausts (A : AgentConfig) (n : Nat)
    (f : Nat → VerifyCompletionResult) (fuel : Nat) (cm : Option RalphContextManager)
    (hstop : A.stopWhen = some [iterationCountIs n])
    (hver : A.verifyCompletion = some f)
    (hcompl : ∀ i, (f i).complete = false)
    (hab : ∀ i, A.abortedAt i = false)
    (hn : 1 ≤ n) (hfuel : n ≤ fuel) :
    ∃ term, loopGo A fuel (initialLoopState cm) = some term ∧
      term.finalState.iteration = n ∧
      term.finalState.allResults.length = n ∧
      term.completionReason = .maxIterations ∧
      term.reason = none := by
  obtain ⟨term, h1, h2, h3, h4⟩ :=
    loopGo_run A n n f hstop hver hab (le_refl n) (fun i _ _ => hcompl i)
      (fun h => absurd h (lt_irrefl n)) fuel (initialLoopState cm) rfl
      (by show 0 < n; omega) (by show n - 0 ≤ fuel; omega)
  rcases h4 with ⟨hlt, _, _⟩ | ⟨_, hc, hr⟩
  · exact absurd hlt (lt_irrefl n)
  · exact ⟨term, h1, h2, h3, hc, hr⟩

/-- The agent of the C2 witness: limit 2, never complete. -/
def agentC2 : AgentConfig :=
  testAgent (some [iterationCountIs 2])
    (some fun _ => { complete := false, reason := none }) (fun _ => false)

/-- Concrete check of C2 at n = 2. -/
theorem claim_C2_witness :
    ((1 : Nat) ≤ 2) ∧
    ∃ term, loopGo agentC2 2 (initialLoopState none) = some term ∧
      term.finalState.iteration = 2 ∧
      term.finalState.allResults.length = 2 ∧
      term.completionReason = .maxIterations ∧
      term.reason = none :=
  ⟨by decide,
    claim_C2_iteration_count_exhausts agentC2 2 (fun _ => { complete := false, reason := none })
      2 none rfl rfl (fun _ => rfl) (fun _ => rfl) (by decide) (by decide)⟩

/-- The agent of the C3 run: abort signal already set when loop is
called. -/
def agentC3 : AgentConfig := testAgent none none (fun _ => true)

/-- C3 at its failing input: with the abort signal set before the first
iteration, the loop breaks with reason aborted after zero iterations,
but the final-result construction reads the last element of the empty
allResults through a non-null assertion and dereferences it, so loop()
throws instead of returning a sentinel (the inner none). -/
theorem claim_C3_abort_without_result :
    loopGo agentC3 3 (initialLoopState none) =
      some { finalState := initialLoopState none, completionReason := .aborted, reason := none } ∧
    loop agentC3 none 3 = some none := by
  exact ⟨rfl, rfl⟩

/-- C10: loop() begins by clearing the context manager, which resets
tracked files, change log, iteration summaries and the iteration
counter; consequently two runs differing only in the context state left
over from an earlier run are indistinguishable, both in the full
termination state (context manager included) and in the returned result. -/
theorem claim_C10_loop_clears_context :
    (∀ cm : RalphContextManager, clear cm =
      { config := cm.config, trackedFiles := [], changeLog := [],
        iterationSummaries := [], currentIteration := 0 }) ∧
    (∀ (A : AgentConfig) (fuel : Nat) (cm1 cm2 : RalphContextManager),
      cm1.config = cm2.config →
      loopGo A fuel (initialLoopState (some cm1)) = loopGo A fuel (initialLoopState (some cm2)) ∧
      loop A (some cm1) fuel = loop A (some cm2) fuel) := by
  constructor
  · intro cm; rfl
  · intro A fuel cm1 cm2 h
    have hinit : initialLoopState (some cm1) = initialLoopState (some cm2) := by
      simp [initialLoopState, clear, h]
    exact ⟨by rw [hinit], by simp [loop, hinit]⟩

/-- The all-defaults context configuration. -/
def cfgDefault : RalphContextConfig :=
  { maxContextTokens := none, changeLogBudget := none, fileContextBudget := none,
    maxFileChars := none, enableSummarization := none, recentIterationsToKeep := none }

/-- A context manager carrying left-over state from an earlier run. -/
def cmWithLogEntry : RalphContextManager :=
  { mkContextManager cfgDefault with
    changeLog := [{ timestamp := 5, iteration := 1, type := .action,
                    summary := "left-over", details := none }] }

/-- Concrete check of C10: a left-over change-log entry from an earlier
run is not observable in the next run. -/
theorem claim_C10_witness :
    cmWithLogEntry.config = (mkContextManager cfgDefault).config ∧
    (loopGo (testAgent none none fun _ => false) 1 (initialLoopState (some cmWithLogEntry)) =
      loopGo (testAgent none none fun _ => false) 1
        (initialLoopState (some (mkContextManager cfgDefault))) ∧
    loop (testAgent none none fun _ => false) (some cmWithLogEntry) 1 =
      loop (testAgent none none fun _ => false) (some (mkContextManager cfgDefault)) 1) :=
  ⟨rfl, claim_C10_loop_clears_context.2 _ 1 _ _ rfl⟩

/-! ### Explicit line ranges in trackFileRead (C6) -/

/-- The context manager of the C6 counterexample: a 10-character
truncation threshold, so small contents stay below it. -/
def cmC6 : RalphContextManager :=
  mkContextManager { cfgDefault with maxFileChars := some 10 }

/-- C6 counterexample: for content within the max-characters threshold,
an explicitly requested line range is ignored — trackFileRead returns
the whole unnumbered content instead of the numbered lines 2..2. -/
theorem claim_C6_counterexample :
    ("a\nb\nc" : String).length ≤ cmC6.config.maxFileChars ∧
    (trackFileRead cmC6 "f.txt" "a\nb\nc" (some (2, 2)) false 0).2.content = "a\nb\nc" ∧
    (trackFileRead cmC6 "f.txt" "a\nb\nc" (some (2, 2)) false 0).2.content ≠
      joinLines (numberLines 2 (((splitLines "a\nb\nc").drop 1).take 1)) := by
  exact ⟨by decide, by decide, by decide⟩

theorem trackFileRead_some_range (cm : RalphContextManager) (path content : String)
    (start stop : Nat) (refresh : Bool) (now : Nat) :
    trackFileRead cm path content (some (start, stop)) refresh now =
      trackFileReadIngest cm path content (some (start, stop)) now := by
  unfold trackFileRead
  cases mapGet cm.trackedFiles path <;> simp

theorem numberLines_get :
    ∀ (l : List String) (startNum i : Nat),
      (numberLines startNum l)[i]? =
        (l[i]?).map fun line => padStart (toString (startNum + i)) 6 ++ "| " ++ line := by
  intro l
  induction l with
  | nil => intro s i; simp [numberLines]
  | cons a rest ih =>
    intro s i
    cases i with
    | zero => simp [numberLines]
    | succ n =>
      have harith : s + 1 + n = s + (n + 1) := by omega
      simp [numberLines, ih (s + 1) n, harith]

/-- C6 as amended: only when the content exceeds the max-characters
threshold does trackFileRead honour an explicitly requested line range —
it then returns exactly the lines start..end of the file, clamped to
the file's bounds, each prefixed with its width-6 right-justified line
number counting from the requested start line; the result reports the
requested range, the file's total line count, and no truncation flag.
Within the threshold the requested range is ignored and the full content
is returned (see the counterexample). Line ranges are 1-based. -/
theorem claim_C6_amended (cm : RalphContextManager) (path content : String)
    (start stop : Nat) (refresh : Bool) (now : Nat)
    (h1 : cm.config.maxFileChars < content.length) (_h2 : 1 ≤ start) :
    ((trackFileRead cm path content (some (start, stop)) refresh now).2.content =
      joinLines (numberLines start
        (((splitLines content).drop (start - 1)).take (stop - (start - 1))))) ∧
    ((trackFileRead cm path content (some (start, stop)) refresh now).2.lineRange =
      some (start, stop)) ∧
    ((trackFileRead cm path content (some (start, stop)) refresh now).2.truncated = false) ∧
    ((trackFileRead cm path content (some (start, stop)) refresh now).2.totalLines =
      some (splitLines content).length) ∧
    (∀ i : Nat,
      (numberLines start (((splitLines content).drop (start - 1)).take (stop - (start - 1))))[i]? =
        ((((splitLines content).drop (start - 1)).take (stop - (start - 1)))[i]?).map
          fun line => padStart (toString (start + i)) 6 ++ "| " ++ line) := by
  rw [trackFileRead_some_range]
  refine ⟨?_, ?_, ?_, ?_, fun i => numberLines_get _ start i⟩ <;>
    simp [trackFileReadIngest, if_pos h1, jsSlice]

/-- The context manager of the C6 amended witness: threshold 3. -/
def cmC6small : RalphContextManager :=
  mkContextManager { cfgDefault with maxFileChars := some 3 }

/-- Concrete check of the amended C6: a 7-character file read with range
2..3 returns the numbered lines 2 and 3. -/
theorem claim_C6_amended_witness :
    (cmC6small.config.maxFileChars < ("a\nb\nc\nd" : String).length ∧ (1 : Nat) ≤ 2) ∧
    ((trackFileRead cmC6small "f.txt" "a\nb\nc\nd" (some (2, 3)) false 0).2.content =
      joinLines (numberLines 2 (((splitLines "a\nb\nc\nd").drop (2 - 1)).take (3 - (2 - 1))))) ∧
    ((trackFileRead cmC6small "f.txt" "a\nb\nc\nd" (some (2, 3)) false 0).2.lineRange =
      some (2, 3)) ∧
    ((trackFileRead cmC6small "f.txt" "a\nb\nc\nd" (some (2, 3)) false 0).2.truncated = false) ∧
    ((trackFileRead cmC6small "f.txt" "a\nb\nc\nd" (some (2, 3)) false 0).2.totalLines =
      some (splitLines "a\nb\nc\nd").length) ∧
    (∀ i : Nat,
      (numberLines 2 (((splitLines "a\nb\nc\nd").drop (2 - 1)).take (3 - (2 - 1))))[i]? =
        ((((splitLines "a\nb\nc\nd").drop (2 - 1)).take (3 - (2 - 1)))[i]?).map
          fun line => padStart (toString (2 + i)) 6 ++ "| " ++ line) :=
  ⟨⟨by decide, by decide⟩,
    claim_C6_amended cmC6small "f.txt" "a\nb\nc\nd" 2 3 false 0 (by decide) (by decide)⟩

/-! ### File-cache eviction invariant (C4) -/

theorem filesTokens_cons (q : String × TrackedFile) (rest : List (String × TrackedFile)) :
    filesTokens (q :: rest) = q.2.estimatedTokens + filesTokens rest := by
  simp [filesTokens]

theorem mapSet_cons_ne (q : String × TrackedFile) (rest : List (String × TrackedFile))
    (key : String) (v : TrackedFile) (h : (q.1 == key) = false) :
    mapSet (q :: rest) key v = q :: mapSet rest key v := by
  by_cases han : (rest.any fun p => p.1 == key) = true
  · have hall : ((q :: rest).any fun p => p.1 == key) = true := by
      simp [List.any_cons, han]
    rw [mapSet, if_pos hall, mapSet, if_pos han, List.map_cons,
      if_neg (by simp [h] : ¬((q.1 == key) = true))]
  · have han' : (rest.any fun p => p.1 == key) = false := Bool.eq_false_iff.mpr han
    have hall : ((q :: rest).any fun p => p.1 == key) = false := by
      simp only [List.any_cons, h, han', Bool.or_false]
    rw [mapSet, if_neg (by simp [hall]), mapSet, if_neg (by simp [han'])]
    rfl

theorem mapSet_cons_eq (q : String × TrackedFile) (rest : List (String × TrackedFile))
    (key : String) (v : TrackedFile) (h : (q.1 == key) = true)
    (hnd : q.1 ∉ rest.map Prod.fst) :
    mapSet (q :: rest) key v = (key, v) :: rest := by
  have hk : q.1 = key := eq_of_beq h
  have hall : ((q :: rest).any fun p => p.1 == key) = true := by
    simp [List.any_cons, h]
  rw [mapSet, if_pos hall]
  simp only [List.map_cons, h, if_true]
  congr 1
  have hrest : ∀ p ∈ rest, (if (p.1 == key) = true then (key, v) else p) = p := by
    intro p hp
    have hne : (p.1 == key) = false := by
      apply beq_eq_false_iff_ne.mpr
      intro hcontra
      exact hnd (hk ▸ hcontra ▸ List.mem_map.mpr ⟨p, hp, rfl⟩)
    simp [hne]
  rw [List.map_congr_left hrest]
  simp

theorem filesTokens_mapSet_le :
    ∀ (files : List (String × TrackedFile)) (key : String) (v : TrackedFile),
      (files.map Prod.fst).Nodup →
      filesTokens (mapSet files key v) ≤ filesTokens files + v.estimatedTokens := by
  intro files
  induction files with
  | nil => intro key v _; simp [mapSet, filesTokens]
  | cons q rest ih =>
    intro key v hnd
    rw [List.map_cons, List.nodup_cons] at hnd
    obtain ⟨hq, hrest⟩ := hnd
    by_cases h : (q.1 == key) = true
    · rw [mapSet_cons_eq q rest key v h hq]
      simp only [filesTokens_cons]
      omega
    · rw [mapSet_cons_ne q rest key v (Bool.eq_false_iff.mpr h)]
      simp only [filesTokens_cons]
      have := ih key v hrest
      omega

theorem nodup_keys_mapSet (files : List (String × TrackedFile)) (key : String) (v : TrackedFile)
    (hnd : (files.map Prod.fst).Nodup) : ((mapSet files key v).map Prod.fst).Nodup := by
  by_cases hall : (files.any fun p => p.1 == key) = true
  · rw [mapSet, if_pos hall]
    have hmp : ((files.map fun p => if (p.1 == key) = true then (key, v) else p).map Prod.fst) =
        files.map Prod.fst := by
      rw [List.map_map]
      apply List.map_congr_left
      intro p _
      by_cases hp1 : (p.1 == key) = true
      · simp [Function.comp, hp1, (eq_of_beq hp1).symm]
      · simp [Function.comp, Bool.eq_false_iff.mpr hp1]
    rw [hmp]
    exact hnd
  · have hall' : (files.any fun p => p.1 == key) = false := Bool.eq_false_iff.mpr hall
    rw [mapSet, if_neg (by simp [hall'])]
    rw [List.map_append, List.nodup_append]
    refine ⟨hnd, by simp, ?_⟩
    intro a ha hb
    simp at hb
    obtain ⟨p, hp, hpa⟩ := List.mem_map.mp ha
    have := List.any_eq_false.mp hall' p hp
    rw [hb] at hpa
    exact this (by simp [hpa])

theorem filesTokens_mapSet_eq :
    ∀ (files : List (String × TrackedFile)) (key : String) (ex v : TrackedFile),
      (files.map Prod.fst).Nodup → mapGet files key = some ex →
      v.estimatedTokens = ex.estimatedTokens →
      filesTokens (mapSet files key v) = filesTokens files := by
  intro files
  induction files with
  | nil => intro key ex v _ hget _; simp [mapGet] at hget
  | cons q rest ih =>
    intro key ex v hnd hget hv
    rw [List.map_cons, List.nodup_cons] at hnd
    obtain ⟨hq, hrest⟩ := hnd
    by_cases h : (q.1 == key) = true
    · have hq2 : mapGet (q :: rest) key = some q.2 := by
        unfold mapGet
        rw [List.find?_cons_of_pos rest h]
        rfl
      rw [hq2] at hget
      have hex : ex = q.2 := (Option.some.injEq _ _).mp hget.symm
      rw [mapSet_cons_eq q rest key v h hq]
      simp only [filesTokens_cons]
      rw [hv, hex]
    · have hrec : mapGet (q :: rest) key = mapGet rest key := by
        unfold mapGet
        rw [List.find?_cons_of_neg rest h]
      rw [hrec] at hget
      rw [mapSet_cons_ne q rest key v (Bool.eq_false_iff.mpr h)]
      simp only [filesTokens_cons]
      rw [ih key ex v hrest hget hv]

theorem evictLoop_sublist :
    ∀ (sorted files : List (String × TrackedFile)) (ttf : Int),
      (evictLoop files sorted ttf).Sublist files := by
  intro sorted
  induction sorted with
  | nil => intro files ttf; rw [evictLoop]
  | cons q rest ih =>
    obtain ⟨p, f⟩ := q
    intro files ttf
    rw [evictLoop]
    by_cases h : ttf ≤ 0
    · rw [if_pos h]
    · rw [if_neg h]
      exact (ih (mapDelete files p) _).trans (List.filter_sublist _)

theorem filesTokens_mapDelete :
    ∀ (files : List (String × TrackedFile)) (p : String) (f : TrackedFile),
      (files.map Prod.fst).Nodup → (p, f) ∈ files →
      filesTokens files = f.estimatedTokens + filesTokens (mapDelete files p) := by
  intro files
  induction files with
  | nil => intro p f _ hm; simp at hm
  | cons q rest ih =>
    intro p f hnd hm
    rw [List.map_cons, List.nodup_cons] at hnd
    obtain ⟨hq, hrest⟩ := hnd
    by_cases h : (q.1 == p) = true
    · have hk : q.1 = p := eq_of_beq h
      have hqe : q = (p, f) := by
        rcases List.mem_cons.mp hm with heq | hmem
        · exact heq.symm
        · exact absurd (hk ▸ List.mem_map.mpr ⟨(p, f), hmem, rfl⟩) hq
      subst hqe
      rw [mapDelete, List.filter_cons]
      simp only [beq_self_eq_true, Bool.not_true, Bool.false_eq_true, if_false]
      have hfe : (rest.filter fun r => !(r.1 == p)) = rest := by
        apply List.filter_eq_self.mpr
        intro r hr
        have hne : r.1 ≠ (p, f).1 := by
          intro hcontra
          exact hq (hcontra ▸ List.mem_map.mpr ⟨r, hr, rfl⟩)
        simp [beq_eq_false_iff_ne.mpr hne]
      rw [hfe, filesTokens_cons]
    · have hne : q ≠ (p, f) := by
        intro hcontra
        rw [hcontra] at h
        simp at h
      have hmem : (p, f) ∈ rest := by
        rcases List.mem_cons.mp hm with heq | hmem
        · exact absurd heq.symm hne
        · exact hmem
      rw [mapDelete, List.filter_cons]
      simp only [h, Bool.not_false, if_true]
      rw [show (rest.filter fun r => !(r.1 == p)) = mapDelete rest p from rfl]
      simp only [filesTokens_cons]
      rw [ih p f hrest hmem]
      omega

theorem mem_mapDelete_of_ne {files : List (String × TrackedFile)} {x : String × TrackedFile}
    {p : String} (hx : x ∈ files) (hne : x.1 ≠ p) : x ∈ mapDelete files p :=
  List.mem_filter.mpr ⟨hx, by simp [hne]⟩

theorem evictLoop_tokens_le :
    ∀ (sorted files : List (String × TrackedFile)) (ttf : Int),
      (∀ x ∈ sorted, x ∈ files) → (sorted.map Prod.fst).Nodup →
      (files.map Prod.fst).Nodup →
      filesTokens files ≤ (sorted.map fun x => x.2.estimatedTokens).sum →
      (filesTokens (evictLoop files sorted ttf) : Int) ≤
        max ((filesTokens files : Int) - ttf) 0 := by
  intro sorted
  induction sorted with
  | nil =>
    intro files ttf _ _ _ hle
    rw [evictLoop]
    have hz : filesTokens files = 0 := by simpa using hle
    rw [hz]
    simp
  | cons q rest ih =>
    obtain ⟨p, f⟩ := q
    intro files ttf hsub hnds hnd hle
    rw [evictLoop]
    by_cases httf : ttf ≤ 0
    · rw [if_pos httf]
      exact le_trans (by omega) (le_max_left ((filesTokens files : Int) - ttf) 0)
    · rw [if_neg httf]
      have hm : (p, f) ∈ files := hsub _ (List.mem_cons_self _ _)
      have htok : filesTokens files = f.estimatedTokens + filesTokens (mapDelete files p) :=
        filesTokens_mapDelete files p f hnd hm
      rw [List.map_cons, List.nodup_cons] at hnds
      obtain ⟨hp, hnds'⟩ := hnds
      have hsub' : ∀ x ∈ rest, x ∈ mapDelete files p := by
        intro x hx
        refine mem_mapDelete_of_ne (hsub x (List.mem_cons_of_mem _ hx)) ?_
        intro hcontra
        exact hp (List.mem_map.mpr ⟨x, hx, hcontra⟩)
      have hnd' : ((mapDelete files p).map Prod.fst).Nodup :=
        List.Nodup.sublist ((List.filter_sublist _).map Prod.fst) hnd
      have hle' : filesTokens (mapDelete files p) ≤
          (rest.map fun x => x.2.estimatedTokens).sum := by
        simp only [List.map_cons, List.sum_cons] at hle
        omega
      have hih := ih (mapDelete files p) (ttf - (f.estimatedTokens : Int)) hsub' hnds' hnd' hle'
      have harg : (filesTokens (mapDelete files p) : Int) - (ttf - (f.estimatedTokens : Int)) =
          (filesTokens files : Int) - ttf := by omega
      rw [harg] at hih
      exact hih

theorem evictFilesIfNeeded_bound (cm : RalphContextManager) (t : Nat)
    (hnd : (cm.trackedFiles.map Prod.fst).Nodup) :
    (t ≤ cm.config.fileContextBudget →
      filesTokens (evictFilesIfNeeded cm t).trackedFiles + t ≤ cm.config.fileContextBudget) ∧
    (cm.config.fileContextBudget < t →
      filesTokens (evictFilesIfNeeded cm t).trackedFiles = 0 ∨
        filesTokens (evictFilesIfNeeded cm t).trackedFiles + t ≤ cm.config.fileContextBudget) ∧
    ((evictFilesIfNeeded cm t).trackedFiles.map Prod.fst).Nodup ∧
    (evictFilesIfNeeded cm t).config = cm.config := by
  by_cases h : filesTokens cm.trackedFiles + t ≤ cm.config.fileContextBudget
  · have hres : evictFilesIfNeeded cm t = cm := by
      simp only [evictFilesIfNeeded]
      rw [if_pos h]
    rw [hres]
    exact ⟨fun _ => by omega, fun _ => Or.inr (by omega), hnd, rfl⟩
  · have hres : (evictFilesIfNeeded cm t).trackedFiles =
        evictLoop cm.trackedFiles
          (cm.trackedFiles.mergeSort fun a b => decide (a.2.lastAccessed ≤ b.2.lastAccessed))
          ((filesTokens cm.trackedFiles : Int) + (t : Int) -
            (cm.config.fileContextBudget : Int)) := by
      simp only [evictFilesIfNeeded]
      rw [if_neg h]
    have hcfg : (evictFilesIfNeeded cm t).config = cm.config := by
      simp only [evictFilesIfNeeded]
      rw [if_neg h]
    have hperm := List.mergeSort_perm cm.trackedFiles
      (fun a b => decide (a.2.lastAccessed ≤ b.2.lastAccessed))
    have hsum : filesTokens cm.trackedFiles ≤
        ((cm.trackedFiles.mergeSort fun a b =>
          decide (a.2.lastAccessed ≤ b.2.lastAccessed)).map fun x => x.2.estimatedTokens).sum := by
      simpa [filesTokens] using ((hperm.map fun x => x.2.estimatedTokens).sum_eq).symm.le
    have hloop := evictLoop_tokens_le
      (cm.trackedFiles.mergeSort fun a b => decide (a.2.lastAccessed ≤ b.2.lastAccessed))
      cm.trackedFiles
      ((filesTokens cm.trackedFiles : Int) + (t : Int) - (cm.config.fileContextBudget : Int))
      (fun x hx => hperm.subset hx)
      (((hperm.map Prod.fst).nodup_iff).mpr hnd)
      hnd
      hsum
    have hsub := evictLoop_sublist
      (cm.trackedFiles.mergeSort fun a b => decide (a.2.lastAccessed ≤ b.2.lastAccessed))
      cm.trackedFiles
      ((filesTokens cm.trackedFiles : Int) + (t : Int) - (cm.config.fileContextBudget : Int))
    rw [← hres] at hloop hsub
    refine ⟨?_, ?_, List.Nodup.sublist (hsub.map Prod.fst) hnd, hcfg⟩
    · intro hc
      have harg : (filesTokens cm.trackedFiles : Int) -
          ((filesTokens cm.trackedFiles : Int) + (t : Int) -
            (cm.config.fileContextBudget : Int)) =
          (cm.config.fileContextBudget : Int) - (t : Int) := by omega
      rw [harg] at hloop
      rw [max_eq_left (by omega : (0 : Int) ≤ (cm.config.fileContextBudget : Int) - (t : Int))]
        at hloop
      omega
    · intro hc
      left
      have harg : (filesTokens cm.trackedFiles : Int) -
          ((filesTokens cm.trackedFiles : Int) + (t : Int) -
            (cm.config.fileContextBudget : Int)) =
          (cm.config.fileContextBudget : Int) - (t : Int) := by omega
      rw [harg] at hloop
      rw [max_eq_right (by omega : (cm.config.fileContextBudget : Int) - (t : Int) ≤ 0)]
        at hloop
      omega

theorem mapSet_after_evict (cm : RalphContextManager) (path : String) (v : TrackedFile)
    (hnd : (cm.trackedFiles.map Prod.fst).Nodup) :
    filesTokens (mapSet (evictFilesIfNeeded cm v.estimatedTokens).trackedFiles path v) ≤
      max cm.config.fileContextBudget v.estimatedTokens ∧
    ((mapSet (evictFilesIfNeeded cm v.estimatedTokens).trackedFiles path v).map Prod.fst).Nodup := by
  obtain ⟨himp1, himp2, hnd1, _⟩ := evictFilesIfNeeded_bound cm v.estimatedTokens hnd
  have hle := filesTokens_mapSet_le (evictFilesIfNeeded cm v.estimatedTokens).trackedFiles path v hnd1
  refine ⟨?_, nodup_keys_mapSet _ _ _ hnd1⟩
  rcases Nat.lt_or_ge cm.config.fileContextBudget v.estimatedTokens with hc | hc
  · rcases himp2 hc with hz | hin
    · have : filesTokens (mapSet (evictFilesIfNeeded cm v.estimatedTokens).trackedFiles path v) ≤
          v.estimatedTokens := by omega
      exact this.trans (le_max_right _ _)
    · exact (by omega : filesTokens (mapSet (evictFilesIfNeeded cm v.estimatedTokens).trackedFiles path v) ≤
        cm.config.fileContextBudget).trans (le_max_left _ _)
  · have := himp1 hc
    exact (by omega : filesTokens (mapSet (evictFilesIfNeeded cm v.estimatedTokens).trackedFiles path v) ≤
      cm.config.fileContextBudget).trans (le_max_left _ _)

theorem trackFileReadIngest_bound (cm : RalphContextManager) (path content : String)
    (lr : Option (Nat × Nat)) (now : Nat)
    (hnd : (cm.trackedFiles.map Prod.fst).Nodup) :
    (((trackFileReadIngest cm path content lr now).1.trackedFiles.map Prod.fst).Nodup) ∧
    filesTokens ((trackFileReadIngest cm path content lr now).1.trackedFiles) ≤
      max cm.config.fileContextBudget
        (estimateTokens ((trackFileReadIngest cm path content lr now).2.content)) := by
  exact ⟨(mapSet_after_evict cm path
      { path := path,
        content := (trackFileReadIngest cm path content lr now).2.content,
        estimatedTokens := estimateTokens (trackFileReadIngest cm path content lr now).2.content,
        lastAccessed := now,
        lineRange := (trackFileReadIngest cm path content lr now).2.lineRange } hnd).2,
    (mapSet_after_evict cm path
      { path := path,
        content := (trackFileReadIngest cm path content lr now).2.content,
        estimatedTokens := estimateTokens (trackFileReadIngest cm path content lr now).2.content,
        lastAccessed := now,
        lineRange := (trackFileReadIngest cm path content lr now).2.lineRange } hnd).1⟩

/-- The context manager of the C4 counterexample: a 10-token file budget. -/
def cmC4 : RalphContextManager :=
  mkContextManager { cfgDefault with fileContextBudget := some 10 }

/-- A 40-character content whose estimated cost (12 tokens) exceeds the
10-token budget by itself. -/
def str40 : String := String.mk (List.replicate 40 'x')

theorem evictFilesIfNeeded_empty (cm : RalphContextManager) (t : Nat)
    (h : cm.trackedFiles = []) : (evictFilesIfNeeded cm t).trackedFiles = [] := by
  by_cases hb : filesTokens cm.trackedFiles + t ≤ cm.config.fileContextBudget
  · have hres : evictFilesIfNeeded cm t = cm := by
      simp only [evictFilesIfNeeded]
      rw [if_pos hb]
    rw [hres]
    exact h
  · have hres : (evictFilesIfNeeded cm t).trackedFiles =
        evictLoop cm.trackedFiles
          (cm.trackedFiles.mergeSort fun a b => decide (a.2.lastAccessed ≤ b.2.lastAccessed))
          ((filesTokens cm.trackedFiles : Int) + (t : Int) -
            (cm.config.fileContextBudget : Int)) := by
      simp only [evictFilesIfNeeded]
      rw [if_neg hb]
    rw [hres]
    have hsub := evictLoop_sublist
      (cm.trackedFiles.mergeSort fun a b => decide (a.2.lastAccessed ≤ b.2.lastAccessed))
      cm.trackedFiles
      ((filesTokens cm.trackedFiles : Int) + (t : Int) - (cm.config.fileContextBudget : Int))
    rw [h] at hsub ⊢
    exact List.sublist_nil.mp hsub

/-- C4 counterexample: reading a single file whose estimated cost
exceeds the whole file-context budget leaves the cache holding 12
estimated tokens against a budget of 10 after the call returns — the
eviction loop ran out of entries to evict and the oversized entry was
inserted anyway. -/
theorem claim_C4_counterexample :
    cmC4.config.fileContextBudget = 10 ∧
    filesTokens (trackFileRead cmC4 "big.txt" str40 none false 1).1.trackedFiles = 12 ∧
    ¬ filesTokens (trackFileRead cmC4 "big.txt" str40 none false 1).1.trackedFiles ≤
        cmC4.config.fileContextBudget := by
  have h1 : (trackFileRead cmC4 "big.txt" str40 none false 1).1.trackedFiles =
      mapSet (evictFilesIfNeeded cmC4 12).trackedFiles "big.txt"
        { path := "big.txt", content := str40, estimatedTokens := 12,
          lastAccessed := 1, lineRange := none } := rfl
  have h2 : filesTokens (trackFileRead cmC4 "big.txt" str40 none false 1).1.trackedFiles = 12 := by
    rw [h1, evictFilesIfNeeded_empty cmC4 12 rfl]
    decide
  exact ⟨rfl, h2, by rw [h2]; decide⟩

/-- C4 as amended: trackFileRead keeps the tracked-file keys unique and,
after any call on a cache whose keys are unique, the total estimated
token cost of the cache is at most the maximum of the configured budget,
the pre-call total, and the estimated cost of the returned content; in
particular the budget invariant total ≤ fileContextBudget is preserved
by every call whose ingested content fits in the budget by itself
(eviction is least-recently-accessed-first, encoded by the
lastAccessed-sorted eviction order in evictFilesIfNeeded). A single
entry larger than the whole budget survives over budget (see the
counterexample). -/
theorem claim_C4_amended (cm : RalphContextManager) (path content : String)
    (lr : Option (Nat × Nat)) (refresh : Bool) (now : Nat)
    (hnd : (cm.trackedFiles.map Prod.fst).Nodup) :
    (((trackFileRead cm path content lr refresh now).1.trackedFiles.map Prod.fst).Nodup) ∧
    filesTokens (trackFileRead cm path content lr refresh now).1.trackedFiles ≤
      max cm.config.fileContextBudget
        (max (filesTokens cm.trackedFiles)
          (estimateTokens (trackFileRead cm path content lr refresh now).2.content)) ∧
    (filesTokens cm.trackedFiles ≤ cm.config.fileContextBudget →
      estimateTokens (trackFileRead cm path content lr refresh now).2.content ≤
        cm.config.fileContextBudget →
      filesTokens (trackFileRead cm path content lr refresh now).1.trackedFiles ≤
        cm.config.fileContextBudget) := by
  unfold trackFileRead
  split
  next existing hget =>
    split
    next hcond =>
      have heq := filesTokens_mapSet_eq cm.trackedFiles path existing
        { existing with lastAccessed := now } hnd hget rfl
      refine ⟨nodup_keys_mapSet _ _ _ hnd, ?_, fun hT _ => ?_⟩
      · show filesTokens (mapSet cm.trackedFiles path { existing with lastAccessed := now }) ≤ _
        rw [heq]
        exact (le_max_left _ _).trans (le_max_right _ _)
      · show filesTokens (mapSet cm.trackedFiles path { existing with lastAccessed := now }) ≤ _
        rw [heq]
        exact hT
    next hcond =>
      obtain ⟨h1, h2⟩ := trackFileReadIngest_bound cm path content lr now hnd
      refine ⟨h1, h2.trans (max_le_max (le_refl _) (le_max_right _ _)), fun hT ht => ?_⟩
      rw [max_eq_left ht] at h2
      exact h2
  next hget =>
    obtain ⟨h1, h2⟩ := trackFileReadIngest_bound cm path content lr now hnd
    refine ⟨h1, h2.trans (max_le_max (le_refl _) (le_max_right _ _)), fun hT ht => ?_⟩
    rw [max_eq_left ht] at h2
    exact h2

/-- A 20-character content (6 estimated tokens) that fits the 10-token
budget. -/
def str20 : String := String.mk (List.replicate 20 'x')

/-- Concrete check of the amended C4: a within-budget read preserves
unique keys and the budget invariant. -/
theorem claim_C4_amended_witness :
    ((cmC4.trackedFiles.map Prod.fst).Nodup) ∧
    ((((trackFileRead cmC4 "small.txt" str20 none false 1).1.trackedFiles.map Prod.fst).Nodup) ∧
    filesTokens (trackFileRead cmC4 "small.txt" str20 none false 1).1.trackedFiles ≤
      max cmC4.config.fileContextBudget
        (max (filesTokens cmC4.trackedFiles)
          (estimateTokens (trackFileRead cmC4 "small.txt" str20 none false 1).2.content)) ∧
    (filesTokens cmC4.trackedFiles ≤ cmC4.config.fileContextBudget →
      estimateTokens (trackFileRead cmC4 "small.txt" str20 none false 1).2.content ≤
        cmC4.config.fileContextBudget →
      filesTokens (trackFileRead cmC4 "small.txt" str20 none false 1).1.trackedFiles ≤
        cmC4.config.fileContextBudget)) :=
  ⟨by decide, claim_C4_amended cmC4 "small.txt" str20 none false 1 (by decide)⟩

end Ralph
